import Mathlib

/-!
Verification development for the bit-sequence core of `software/glasgow/support/bits.py`.

The Python module implements an immutable (`bits`) and a mutable (`bitarray`) packed
bit sequence: a logical bit length `_len` together with a little-endian, LSB-first
byte buffer `_bytes` of `ceil(_len / 8)` bytes, whose unused high bits of the final
byte must be zero.

We embed the representation as a Lean structure and each Python method as a Lean
function over it; fallible methods return `Except String`.  Machine bytes are `Nat`
values, with `< 256` carried as an invariant.  Python's floor division and modulo on
`int` are `Int.fdiv` / `Int.emod`.
-/

set_option linter.unusedVariables false

deriving instance DecidableEq for Except

/-- `_byte_len(l) = (l + 7) // 8`: number of storage bytes for `l` logical bits. -/
def byteLen (l : Nat) : Nat := (l + 7) / 8

/-- One entry of `_byterev_lut`: `sum(((byte >> bit) & 1) << (7 - bit) for bit in range(8))`.
The table maps a byte to its bit-reversed value; `bytes.translate` is `List.map _byterev`. -/
def _byterev (b : Nat) : Nat :=
  ((List.range 8).map (fun bit => ((b >>> bit) &&& 1) <<< (7 - bit))).sum

/-- The shared representation of `_bits_base` (both the immutable `bits` and the
mutable `bitarray`): logical length `_len` and packed storage `_bytes`. -/
structure bits where
  _len : Nat
  _bytes : List Nat
deriving DecidableEq, Repr

/-- `_bits_base.__getitem__` for an in-range non-negative index:
`(self._bytes[key // 8] >> (key % 8)) & 1`. -/
def getBit (x : bits) (key : Nat) : Nat :=
  ((x._bytes.getD (key / 8) 0) >>> (key % 8)) &&& 1

/-- Iterating a sequence (`Sequence.__iter__`) yields `self[0], self[1], ...`. -/
def toBitsList (x : bits) : List Nat := (List.range x._len).map (getBit x)

/-- Accumulate an LSB-first list of bits into one byte, as `from_iter` does with
`byte |= bit << (nbits % 8)`: bit `k` of the result is element `k` of the list. -/
def byteOfBits (l : List Nat) : Nat := l.foldr (fun b acc => b + 2 * acc) 0

/-- Pack a bit list into bytes, 8 bits per byte LSB-first, emitting a final partial
byte when the bit count is not a multiple of 8; the fuel argument is the byte count. -/
def packBitsN : Nat → List Nat → List Nat
  | 0, _ => []
  | k + 1, l => byteOfBits (l.take 8) :: packBitsN k (l.drop 8)

/-- The storage produced by `_bits_base.from_iter`'s `make_bytes` generator. -/
def packBits (l : List Nat) : List Nat := packBitsN (byteLen l.length) l

/-- `_bits_base.from_iter` on a finite source of bit values.  The source validates
each produced value to be 0 or 1; every call site in this development feeds bits
obtained from `getBit`, which are always 0 or 1, so the check never fires. -/
def from_iter (l : List Nat) : bits := ⟨l.length, packBits l⟩

/-- Little-endian byte decomposition: `value.to_bytes(count, 'little')`. -/
def natToBytesLE : Nat → Nat → List Nat
  | 0, _ => []
  | k + 1, v => (v % 256) :: natToBytesLE k (v / 256)

/-- `_bits_base.from_int` with an explicit length: `value &= ~(-1 << length)` masks the
value modulo `2 ^ length` (Python `&` with the all-ones mask is a floor-mod), then the
storage is the little-endian encoding over `_byte_len(length)` bytes. -/
def from_int (value : Int) (length : Nat) : bits :=
  ⟨length, natToBytesLE (byteLen length) (value.emod ((2 : Int) ^ length)).toNat⟩

/-- `str` of a single bit value. -/
def bitChar (b : Nat) : Char := if b = 1 then '1' else '0'

/-- `_bits_base.to_str`: `''.join(str(x) for x in reversed(self))` - the textual form
lists bits most-significant-first. -/
def to_str (x : bits) : String := ⟨(toBitsList x).reverse.map bitChar⟩

/-- A character removed by `re.sub(r"[\s_]", "", value)`. -/
def isSepChar (c : Char) : Bool := c.isWhitespace || c = '_'

/-- `_bits_base.from_str`: strip whitespace and `_`, require only `0`/`1` characters,
then feed `from_iter` with the characters consumed in reverse. -/
def from_str (s : String) : Except String bits :=
  let v := s.data.filter (fun c => !isSepChar c)
  if v.all (fun c => c = '0' || c = '1') then
    .ok (from_iter (v.reverse.map (fun c => if c = '1' then 1 else 0)))
  else .error "invalid input for bits"

/-- The representation invariant of section 3 of the spec: the storage holds exactly
`ceil(_len / 8)` bytes, every storage element is a byte, and when `_len` is not a
multiple of 8 the unused high bits of the final byte are zero. -/
def WF (x : bits) : Prop :=
  x._bytes.length = byteLen x._len ∧ (∀ b ∈ x._bytes, b < 256) ∧
    (x._len % 8 ≠ 0 → x._bytes.getLast?.getD 0 < 2 ^ (x._len % 8))

instance (x : bits) : Decidable (WF x) := by
  unfold WF; infer_instance

/-- CPython's `slice.indices(length)` normalization: clip `start`/`stop` against the
length, with defaults depending on the sign of `step`. -/
def sliceIndices (s0 s1 : Option Int) (step : Int) (length : Nat) : Int × Int × Int :=
  let L : Int := length
  let lower : Int := if step < 0 then -1 else 0
  let upper : Int := if step < 0 then L - 1 else L
  let start :=
    match s0 with
    | none => if step < 0 then upper else lower
    | some v => if v < 0 then max (v + L) lower else min v upper
  let stop :=
    match s1 with
    | none => if step < 0 then lower else upper
    | some v => if v < 0 then max (v + L) lower else min v upper
  (start, stop, step)

/-- Number of elements of Python's `range(start, stop, step)` (for `step ≠ 0`). -/
def pyRangeLen (start stop step : Int) : Nat :=
  if 0 < step then ((stop - start + step - 1).fdiv step).toNat
  else ((start - stop - step - 1).fdiv (-step)).toNat

/-- The elements of Python's `range(start, stop, step)`. -/
def pyRangeList (start stop step : Int) : List Int :=
  List.map (fun k : Nat => start + step * (k : Int)) (List.range (pyRangeLen start stop step))

/-- Membership test for Python's `range(start, stop, step)`. -/
def pyRangeMem (start stop step i : Int) : Bool :=
  if 0 < step then start ≤ i && i < stop && (i - start).emod step = 0
  else stop < i && i ≤ start && (i - start).emod step = 0

/-- General Python sequence slicing `l[s0:s1:st]` on a byte buffer: normalize the
bounds with `slice.indices`, then read the indexed elements.  All indices produced
by the normalized range lie inside the list, so the `getD` default is never used. -/
def pySliceList (l : List Nat) (s0 s1 : Option Int) (st : Int) : List Nat :=
  let n := sliceIndices s0 s1 st l.length
  (pyRangeList n.1 n.2.1 n.2.2).map (fun i => l.getD i.toNat 0)

/-- Python `l[i:j] = v` on a byte buffer (contiguous slice assignment): clip both
bounds to `[0, len]`, with an empty-or-inverted range meaning insertion at `i`. -/
def pySetSliceContig (l : List Nat) (i j : Int) (v : List Nat) : List Nat :=
  let i' := (min (max i 0) (l.length : Int)).toNat
  let j' := (min (max j 0) (l.length : Int)).toNat
  l.take i' ++ v ++ l.drop (max i' j')

/-- `_bits_base.__getitem__` for a slice key.  Paths, in source order:
empty range; the `step == -1` byte-aligned reverse fast path
(`self._bytes[start // 8 : stop // 8 : -1].translate(_byterev_lut)`, length
`start - stop`); the `step == 1` byte-aligned forward fast path
(`self._bytes[start // 8 : (stop + 7) // 8]`, here written as drop/take since both
byte bounds are non-negative); and the slow path, which in this source iterates
`range(start, stop)` - without the step.  Slow-path indices are non-negative and
in range, so plain `getBit` is faithful there. -/
def getitem_slice (x : bits) (s0 s1 : Option Int) (st : Int) : bits :=
  let n := sliceIndices s0 s1 st x._len
  let start := n.1
  let stop := n.2.1
  let step := n.2.2
  if pyRangeLen start stop step = 0 then ⟨0, []⟩
  else if step = -1 ∧ start.emod 8 = 7 ∧ stop.emod 8 = 7 then
    ⟨(start - stop).toNat,
      (pySliceList x._bytes (some (start.fdiv 8)) (some (stop.fdiv 8)) (-1)).map _byterev⟩
  else if step = 1 ∧ start.emod 8 = 0 ∧ (stop.emod 8 = 0 ∨ stop = (x._len : Int)) then
    ⟨(stop - start).toNat,
      (x._bytes.drop (start.fdiv 8).toNat).take
        (((stop + 7).fdiv 8).toNat - (start.fdiv 8).toNat)⟩
  else
    from_iter ((pyRangeList start stop 1).map (fun i => getBit x i.toNat))

/-- Modelled from the spec (section 4.2): the generic bit-by-bit reconstruction of a
slice, iterating the computed index range `range(start, stop, step)` one logical bit
at a time.  The fast paths are claimed to be equivalent to this for the same
normalized parameters.  (The source's own slow path drops the step.) -/
def sliceGenericSpec (x : bits) (start stop step : Int) : bits :=
  from_iter ((pyRangeList start stop step).map (fun i => getBit x i.toNat))

/-- `bitarray._fix_padding`: mask the final byte with `~(-1 << (self._len % 8))`,
that is `2 ^ (self._len % 8) - 1`, when the length is not byte-aligned. -/
def mapLast (f : Nat → Nat) : List Nat → List Nat
  | [] => []
  | [b] => [f b]
  | b :: rest => b :: mapLast f rest

def _fix_padding (a : bits) : bits :=
  if a._len % 8 ≠ 0 then ⟨a._len, mapLast (fun b => b &&& (2 ^ (a._len % 8) - 1)) a._bytes⟩
  else a

/-- `bitarray._resize`.  Shrinking deletes the bytes past `_byte_len(length)` and then
calls `_fix_padding` while `self._len` still holds the OLD length (the new length is
only assigned afterwards).  Growing executes `self._bytes += bytes(blen - self._bytes)`,
which subtracts a bytearray from an int and raises `TypeError` unconditionally. -/
def _resize (a : bits) (length : Nat) : Except String bits :=
  let blen := byteLen length
  if length < a._len then
    .ok ⟨length, (_fix_padding ⟨a._len, a._bytes.take blen⟩)._bytes⟩
  else if a._len < length then
    .error "TypeError: unsupported operand types for subtraction of int and bytearray"
  else .ok ⟨length, a._bytes⟩

/-- `self += value` on a `bitarray`, i.e. `extend`, i.e. `self[len(self):] = value`.
At `start = stop = self._len` the dispatch of `__setitem__` reduces to exactly these
four cases: both-aligned splice; aligned append; empty value (the equal-length branch
with an empty range); and otherwise the tail-extend branch, whose `_resize` growth
raises `TypeError` (see `_resize`). -/
def extend_bits (a value : bits) : Except String bits :=
  if a._len % 8 = 0 ∧ value._len % 8 = 0 then
    .ok ⟨(a._bytes ++ value._bytes).length * 8, a._bytes ++ value._bytes⟩
  else if a._len % 8 = 0 then
    .ok ⟨a._len + value._len, a._bytes ++ value._bytes⟩
  else if value._len = 0 then .ok a
  else .error "TypeError: unsupported operand types for subtraction of int and bytearray"

/-- `bitarray.__setitem__` for an integer key: validate the bit value, normalize a
negative index, bounds-check, then set or clear the bit in place.  Clearing writes
`self._bytes[key // 8] &= ~(1 << (key % 8))`; for a non-negative byte `b` and mask
`m = 1 << j`, `b & ~m` equals `b - (b &&& m)` since the masked bits are a subset. -/
def setitem_int (a : bits) (key value : Int) : Except String bits :=
  if value ≠ 0 ∧ value ≠ 1 then .error "bit value must be 0 or 1"
  else
    let key := if key < 0 then key + a._len else key
    if key < 0 ∨ (a._len : Int) ≤ key then .error "bits index out of range"
    else
      let k := key.toNat
      let b := a._bytes.getD (k / 8) 0
      if value = 1 then
        .ok ⟨a._len, a._bytes.set (k / 8) (b ||| (1 <<< (k % 8)))⟩
      else
        .ok ⟨a._len, a._bytes.set (k / 8) (b - (b &&& (1 <<< (k % 8))))⟩

/-- `bitarray.__setitem__` for a slice key with the value already coerced to a bit
sequence (the source first coerces `int` via `bits(value, len(rng))` and `str` via
`bits(value)`).  Branches in source order: `step != 1` (size check plus a bit-by-bit
loop of single-index assignments); byte-aligned splice with aligned ends, which sets
`self._len = len(self._bytes) * 8`; byte-aligned tail replacement
(`self._bytes[start // 8 :] = value._bytes`); equal-length in-place loop; tail-extend
(`_resize` grow, then loop); and the general rebuild (capture tail, shrink, append
value, append tail - the appends are `extend_bits`). -/
def setitem_slice (a : bits) (s0 s1 : Option Int) (st : Int) (value : bits) :
    Except String bits :=
  let n := sliceIndices s0 s1 st a._len
  let start := n.1
  let stop := n.2.1
  let step := n.2.2
  if step ≠ 1 then
    if pyRangeLen start stop step ≠ value._len then
      .error "atempt to assign sequence to extended slice of different size"
    else
      ((pyRangeList start stop step).zip (toBitsList value)).foldlM
        (fun s p => setitem_int s p.1 (p.2 : Int)) a
  else if start.emod 8 = 0 ∧ stop.emod 8 = 0 ∧ value._len % 8 = 0 then
    let newBytes := pySetSliceContig a._bytes (start.fdiv 8) (stop.fdiv 8) value._bytes
    .ok ⟨newBytes.length * 8, newBytes⟩
  else if start.emod 8 = 0 ∧ stop = (a._len : Int) then
    let newBytes := pySetSliceContig a._bytes (start.fdiv 8) (a._bytes.length : Int) value._bytes
    .ok ⟨(start + (value._len : Int)).toNat, newBytes⟩
  else if stop - start = (value._len : Int) then
    ((pyRangeList start stop step).zip (toBitsList value)).foldlM
      (fun s p => setitem_int s p.1 (p.2 : Int)) a
  else if stop = (a._len : Int) then do
    let s ← _resize a (a._len + value._len)
    ((pyRangeList start stop step).zip (toBitsList value)).foldlM
      (fun t p => setitem_int t p.1 (p.2 : Int)) s
  else do
    let tail := getitem_slice a (some stop) none 1
    let s ← _resize a start.toNat
    let s2 ← extend_bits s value
    extend_bits s2 tail

/-- `bitarray.insert`: validate the bit, normalize a negative index; appending at
`index == self._len` grows the storage by a byte when byte-aligned, bumps `_len` and
assigns the new last bit; an interior insert is `self[index:index] = bits(value, 1)`. -/
def bitarray_insert (a : bits) (index value : Int) : Except String bits :=
  if value ≠ 0 ∧ value ≠ 1 then .error "wrong value for bitarray"
  else
    let index := if index < 0 then index + a._len else index
    if index = (a._len : Int) then
      let a1 : bits := if a._len % 8 = 0 then ⟨a._len, a._bytes ++ [0]⟩ else a
      let a2 : bits := ⟨a1._len + 1, a1._bytes⟩
      setitem_int a2 index value
    else
      setitem_slice a (some index) (some index) 1 (from_int value 1)

/-- An index-or-slice key, as accepted by `__delitem__`. -/
inductive pykey where
  | idx (i : Int)
  | slc (s0 s1 : Option Int) (st : Int)
deriving DecidableEq, Repr

/-- `del a[key]` on a `bitarray`.  The source defines
`def __delitem__(self, key, value)` with a phantom extra parameter; CPython's
del-statement protocol calls `type(a).__delitem__(a, key)` with the key alone, so
every deletion raises `TypeError` before any state is touched. -/
def delitem (a : bits) (key : pykey) : Except String bits :=
  .error "TypeError: delitem missing 1 required positional argument: value"

/-- The body of `bitarray.__delitem__` for a slice key, modelled as if the method
were callable.  The byte-aligned fast path ends in `return res` with `res` unbound,
raising `NameError` (after having mutated the receiver - the error is modelled as
producing no state); the trim path is `_resize(start)`; the `step == 1` slow path
captures the tail, shrinks, and re-appends; the stepped path rebuilds, keeping the
bits whose position is not in `range(start, stop, step)`. -/
def delitem_slice_body (a : bits) (s0 s1 : Option Int) (st : Int) : Except String bits :=
  let n := sliceIndices s0 s1 st a._len
  let start := n.1
  let stop := n.2.1
  let step := n.2.2
  if pyRangeLen start stop step = 0 then .ok a
  else if step = 1 ∧ start.emod 8 = 0 ∧ (stop.emod 8 = 0 ∨ stop = (a._len : Int)) then
    .error "NameError: name res is not defined"
  else if step = 1 ∧ stop = (a._len : Int) then _resize a start.toNat
  else if step = 1 then do
    let tail := getitem_slice a (some stop) none 1
    let s ← _resize a start.toNat
    extend_bits s tail
  else
    .ok (from_iter ((toBitsList a).enum.filterMap
      (fun p => if pyRangeMem start stop step (p.1 : Int) then none else some p.2)))

/-- Python `list * n`: `n` copies for positive `n`, empty for `n ≤ 0`. -/
def listMulInt (l : List Nat) (n : Int) : List Nat :=
  (List.replicate n.toNat l).flatten

/-- `bitarray.__imul__`.  The byte-aligned-or-zero branch is checked FIRST, so a
negative multiplier on a byte-aligned sequence is not rejected: `self._bytes *= other`
empties the storage and `self._len *= other` goes negative, hence the result length
is an `Int` here.  Unaligned sequences with `other >= 2` self-append via `extend`. -/
def imul (a : bits) (other : Int) : Except String (Int × List Nat) :=
  if a._len % 8 = 0 ∨ other = 0 then
    .ok ((a._len : Int) * other, listMulInt a._bytes other)
  else if other < 0 then .error "cannot multiply bitarray by negative count"
  else if other ≠ 1 then do
    let val := getitem_slice a none none 1
    let r ← (List.range (other.toNat - 1)).foldlM (fun s _ => extend_bits s val) a
    .ok ((r._len : Int), r._bytes)
  else .ok ((a._len : Int), a._bytes)

/-- `_bits_base._bitop` restricted to bit-sequence operands: equal lengths are
required, then the operation is byte-wise over the storage. -/
def _bitop (x y : bits) (op : Nat → Nat → Nat) : Except String bits :=
  if y._len ≠ x._len then .error "mismatched bitwise operator widths"
  else .ok ⟨x._len, List.zipWith op x._bytes y._bytes⟩

def andB (x y : bits) : Except String bits := _bitop x y (· &&& ·)

def orB (x y : bits) : Except String bits := _bitop x y (· ||| ·)

def xorB (x y : bits) : Except String bits := _bitop x y (· ^^^ ·)

/-- `_bits_base.__not__`.  The source iterates `for i, x in self._bytes` - without
`enumerate` - so each iteration tuple-unpacks a plain `int` byte and raises
`TypeError` on the first element; only the empty sequence survives (the generator
never runs and yields the empty storage). -/
def notB (x : bits) : Except String bits :=
  match x._bytes with
  | [] => .ok ⟨x._len, []⟩
  | _ :: _ => .error "TypeError: cannot unpack non-iterable int object"

/-- The effective `bitarray.reverse`: the second of the two definitions in the class
body, which shadows the first.  It requires a byte-aligned length (else `ValueError`)
and runs the storage through the byte-reversal table without reordering the bytes. -/
def bitarray_reverse (a : bits) : Except String bits :=
  if a._len % 8 = 0 then .ok ⟨a._len, a._bytes.map _byterev⟩
  else .error "byte_reverse requires a bitstream of length divisible by 8"

/-- The categories of Python values a sequence can be compared against: another
sequence (immutable or mutable), or a non-sequence value. -/
inductive pyobj where
  | seq (mutable : Bool) (x : bits)
  | intv (n : Int)
  | strv (s : String)
  | bytesv (b : List Nat)
  | listv (l : List Int)
  | nonev
deriving DecidableEq, Repr

/-- `_bits_base.__eq__`: `isinstance(other, _bits_base)` accepts both variants, then
the comparison is `self._len == other._len and self._bytes == other._bytes`
(Python compares `bytes` and `bytearray` contents interchangeably); any other
operand compares unequal rather than raising. -/
def py_eq (x : bits) (other : pyobj) : Bool :=
  match other with
  | .seq _ y => x._len == y._len && x._bytes == y._bytes
  | _ => false

/-- `bits.__hash__` is `hash((self._len, self._bytes))`, a deterministic function of
the pair within a process; we model it by the pair itself, which identifies hash
equality with pair equality. -/
def py_hash (x : bits) : Nat × List Nat := (x._len, x._bytes)

/-- `pyobj.isSeq`: whether the operand is a bit sequence. -/
def pyobj.isSeq : pyobj → Bool
  | .seq _ _ => true
  | _ => false

/-- Modelled from the spec (section 4.4): the sequence that a step-1 slice assignment
is required to produce - the prefix before the slice start, the assigned value's
bits, then the suffix from the slice stop. -/
def specSplice (a : bits) (start stop : Nat) (v : bits) : bits :=
  from_iter ((toBitsList a).take start ++ toBitsList v ++ (toBitsList a).drop stop)

/-- A mutable-sequence operation: single-bit assignment, slice assignment (value
already coerced to a sequence), insertion, or deletion. -/
inductive MutOp where
  | setBit (key value : Int)
  | setSlice (s0 s1 : Option Int) (st : Int) (value : bits)
  | ins (index value : Int)
  | delOp (key : pykey)
deriving DecidableEq, Repr

def applyOp (a : bits) : MutOp → Except String bits
  | .setBit k v => setitem_int a k v
  | .setSlice s0 s1 st v => setitem_slice a s0 s1 st v
  | .ins i v => bitarray_insert a i v
  | .delOp k => delitem a k

def applyOps (a : bits) (ops : List MutOp) : Except String bits :=
  ops.foldlM applyOp a

/-- A slice-assignment value, being a constructed sequence, satisfies the
representation invariant; other operations carry no sequence. -/
def OpWF : MutOp → Prop
  | .setSlice _ _ _ v => WF v
  | _ => True

instance (op : MutOp) : Decidable (OpWF op) := by
  unfold OpWF; cases op <;> infer_instance

/-! ## Basic helper lemmas -/

lemma getBitNat_eq (m k : Nat) : (m >>> k) &&& 1 = m / 2 ^ k % 2 := by
  rw [Nat.and_one_is_mod, Nat.shiftRight_eq_div_pow]

lemma getBit_ite_testBit (m k : Nat) : (m >>> k) &&& 1 = if m.testBit k then 1 else 0 := by
  rw [getBitNat_eq, Nat.testBit_to_div_mod]
  rcases Nat.mod_two_eq_zero_or_one (m / 2 ^ k) with h | h <;> simp [h]

lemma getBit_le_one (x : bits) (i : Nat) : getBit x i ≤ 1 := by
  unfold getBit; exact Nat.and_le_right

lemma getD_mem (l : List Nat) (i : Nat) (h : i < l.length) : l.getD i 0 ∈ l := by
  induction l generalizing i with
  | nil => simp at h
  | cons a t ih =>
    cases i with
    | zero => simp
    | succ j => simp only [List.getD_cons_succ]; exact List.mem_cons_of_mem _ (ih j (by simpa using h))

lemma getD_map (f : Nat → Nat) (l : List Nat) (i : Nat) (h : i < l.length) :
    (l.map f).getD i 0 = f (l.getD i 0) := by
  induction l generalizing i with
  | nil => simp at h
  | cons a t ih =>
    cases i with
    | zero => simp
    | succ j => simpa using ih j (by simpa using h)

lemma getD_set (l : List Nat) (i j v : Nat) :
    (l.set i v).getD j 0 = if i = j ∧ j < l.length then v else l.getD j 0 := by
  induction l generalizing i j with
  | nil => simp
  | cons a t ih =>
    cases i with
    | zero => cases j <;> simp
    | succ i' =>
      cases j with
      | zero => simp
      | succ j' =>
        have hiff : (i' + 1 = j' + 1 ∧ j' + 1 < t.length + 1) ↔ (i' = j' ∧ j' < t.length) := by
          omega
        simp only [List.set_cons_succ, List.getD_cons_succ, List.length_cons, ih i' j', hiff]

lemma getLastD_eq_getD (l : List Nat) : l.getLast?.getD 0 = l.getD (l.length - 1) 0 := by
  induction l with
  | nil => rfl
  | cons a t ih =>
    cases t with
    | nil => rfl
    | cons b t2 => simpa using ih

lemma zipWith_getD (f : Nat → Nat → Nat) (l1 l2 : List Nat) (i : Nat)
    (h1 : i < l1.length) (h2 : i < l2.length) :
    (List.zipWith f l1 l2).getD i 0 = f (l1.getD i 0) (l2.getD i 0) := by
  induction l1 generalizing l2 i with
  | nil => simp at h1
  | cons a t ih =>
    cases l2 with
    | nil => simp at h2
    | cons b t2 =>
      cases i with
      | zero => simp
      | succ j => simpa using ih t2 j (by simpa using h1) (by simpa using h2)

/-! ## Byte reversal -/

lemma byterev_expand (b : Nat) : _byterev b =
    128 * (b % 2) + 64 * (b / 2 % 2) + 32 * (b / 4 % 2) + 16 * (b / 8 % 2)
      + 8 * (b / 16 % 2) + 4 * (b / 32 % 2) + 2 * (b / 64 % 2) + (b / 128 % 2) := by
  unfold _byterev
  simp [List.range_succ, Nat.shiftRight_eq_div_pow, Nat.and_one_is_mod, Nat.shiftLeft_eq]
  ring

lemma sum_bits_div_mod (b0 b1 b2 b3 b4 b5 b6 b7 : Nat)
    (h0 : b0 ≤ 1) (h1 : b1 ≤ 1) (h2 : b2 ≤ 1) (h3 : b3 ≤ 1)
    (h4 : b4 ≤ 1) (h5 : b5 ≤ 1) (h6 : b6 ≤ 1) (h7 : b7 ≤ 1) :
    (128 * b0 + 64 * b1 + 32 * b2 + 16 * b3 + 8 * b4 + 4 * b5 + 2 * b6 + b7) % 2 = b7 ∧
    (128 * b0 + 64 * b1 + 32 * b2 + 16 * b3 + 8 * b4 + 4 * b5 + 2 * b6 + b7) / 2 % 2 = b6 ∧
    (128 * b0 + 64 * b1 + 32 * b2 + 16 * b3 + 8 * b4 + 4 * b5 + 2 * b6 + b7) / 4 % 2 = b5 ∧
    (128 * b0 + 64 * b1 + 32 * b2 + 16 * b3 + 8 * b4 + 4 * b5 + 2 * b6 + b7) / 8 % 2 = b4 ∧
    (128 * b0 + 64 * b1 + 32 * b2 + 16 * b3 + 8 * b4 + 4 * b5 + 2 * b6 + b7) / 16 % 2 = b3 ∧
    (128 * b0 + 64 * b1 + 32 * b2 + 16 * b3 + 8 * b4 + 4 * b5 + 2 * b6 + b7) / 32 % 2 = b2 ∧
    (128 * b0 + 64 * b1 + 32 * b2 + 16 * b3 + 8 * b4 + 4 * b5 + 2 * b6 + b7) / 64 % 2 = b1 ∧
    (128 * b0 + 64 * b1 + 32 * b2 + 16 * b3 + 8 * b4 + 4 * b5 + 2 * b6 + b7) / 128 % 2 = b0 := by
  refine ⟨?_, ?_, ?_, ?_, ?_, ?_, ?_, ?_⟩ <;> omega

lemma byterev_bit (b r : Nat) (hr : r < 8) :
    (_byterev b) >>> r &&& 1 = b >>> (7 - r) &&& 1 := by
  rw [getBitNat_eq, getBitNat_eq, byterev_expand]
  obtain ⟨e0, e1, e2, e3, e4, e5, e6, e7⟩ :=
    sum_bits_div_mod (b % 2) (b / 2 % 2) (b / 4 % 2) (b / 8 % 2)
      (b / 16 % 2) (b / 32 % 2) (b / 64 % 2) (b / 128 % 2)
      (by omega) (by omega) (by omega) (by omega) (by omega) (by omega) (by omega) (by omega)
  interval_cases r <;> norm_num <;> omega

/-! ## Claim C1: slice fast-path equivalence -/

/-- C1: the claim asserts that every fast path of slice indexing agrees with the
generic bit-by-bit reconstruction for the same normalized parameters.  It fails:
for the full reverse slice `x[::-1]` of an 8-bit sequence the parameters normalize
to `start = 7, stop = -1, step = -1`, which satisfies the reverse fast path's guard
(`-1 % 8 == 7` in Python), but the byte-buffer slice `self._bytes[0 : -1 : -1]` is
empty because the `-1` endpoint re-normalizes to the last byte; the fast path thus
returns a length-8 sequence with empty storage, while the generic reconstruction
returns the actual bit reversal. -/
theorem C1_reverse_fastpath_diverges :
    sliceIndices none none (-1) 8 = (7, -1, -1) ∧
    getitem_slice ⟨8, [1]⟩ none none (-1) = ⟨8, []⟩ ∧
    sliceGenericSpec ⟨8, [1]⟩ 7 (-1) (-1) = ⟨8, [128]⟩ ∧
    getitem_slice ⟨8, [1]⟩ none none (-1) ≠ sliceGenericSpec ⟨8, [1]⟩ 7 (-1) (-1) := by
  refine ⟨by decide, by decide, by decide, by decide⟩

/-! ## Claim C3: length-changing step-1 slice assignment -/

/-- C3: the claim asserts that a step-1 slice assignment always produces
prefix ++ value ++ suffix.  It fails on the byte-aligned splice path: assigning an
8-bit value to `a[0:8]` on a 12-bit sequence executes
`self._len = len(self._bytes) * 8`, promoting the 4 padding bits of the final byte
to logical bits - the result has length 16 instead of 12. -/
theorem C3_splice_wrong_length :
    setitem_slice ⟨12, [0, 15]⟩ (some 0) (some 8) 1 ⟨8, [255]⟩ = .ok ⟨16, [255, 15]⟩ ∧
    specSplice ⟨12, [0, 15]⟩ 0 8 ⟨8, [255]⟩ = ⟨12, [255, 15]⟩ ∧
    setitem_slice ⟨12, [0, 15]⟩ (some 0) (some 8) 1 ⟨8, [255]⟩ ≠
      .ok (specSplice ⟨12, [0, 15]⟩ 0 8 ⟨8, [255]⟩) := by
  refine ⟨by decide, by decide, by decide⟩

/-! ## Claim C4: deletion -/

/-- C4: the claim asserts single-index deletion behaves as deletion of the unit
slice and that slice deletion removes exactly the addressed bits.  On this source no
deletion can succeed: `__delitem__` is declared with a phantom extra parameter
`value`, so the del-statement protocol raises `TypeError` before touching the
sequence; and even the body, modelled as if callable, raises `TypeError` in
`_resize` growth on the interior unit-range delete `del a[1:2]` of a 3-bit sequence,
and `NameError` (unbound `res`) on the byte-aligned fast path. -/
theorem C4_deletion_always_raises :
    delitem ⟨3, [5]⟩ (.idx 1)
      = .error "TypeError: delitem missing 1 required positional argument: value" ∧
    delitem_slice_body ⟨3, [5]⟩ (some 1) (some 2) 1
      = .error "TypeError: unsupported operand types for subtraction of int and bytearray" ∧
    delitem_slice_body ⟨16, [171, 205]⟩ (some 0) (some 8) 1
      = .error "NameError: name res is not defined" := by
  refine ⟨by decide, by decide, by decide⟩

/-! ## Claim C5: bitwise NOT -/

/-- C5: the claim asserts bitwise NOT complements every bit and re-masks the final
byte.  The source's `__not__` iterates `for i, x in self._bytes` without
`enumerate`, tuple-unpacking plain `int` bytes, so it raises `TypeError` for every
non-empty sequence; only the empty sequence survives. -/
theorem C5_not_raises :
    notB ⟨1, [1]⟩ = .error "TypeError: cannot unpack non-iterable int object" ∧
    notB ⟨1, [1]⟩ ≠ .ok ⟨1, [0]⟩ ∧
    notB ⟨0, []⟩ = .ok ⟨0, []⟩ := by
  refine ⟨by decide, by decide, by decide⟩

/-! ## Claim C6: in-place repetition -/

/-- C6: the claim asserts a negative multiplier always raises and leaves the
sequence unchanged, and a non-negative multiplier repeats the pattern.  The source
tests `self._len % 8 == 0 or other == 0` BEFORE the sign check, so a byte-aligned
sequence multiplied by `-1` silently becomes empty storage with length `-8` instead
of raising; and an unaligned sequence multiplied by 2 raises `TypeError` (the
self-append path reaches `_resize` growth) instead of repeating. -/
theorem C6_imul_negative_not_rejected :
    imul ⟨8, [165]⟩ (-1) = .ok (-8, []) ∧
    imul ⟨4, [5]⟩ 2
      = .error "TypeError: unsupported operand types for subtraction of int and bytearray" := by
  refine ⟨by decide, by decide⟩

/-! ## Claim C9: structural equality and hashing -/

/-- C9: equality between sequences is purely structural and cross-variant - equal
iff same logical length and same packed storage, regardless of mutability of either
side; comparison against any non-sequence value returns `False` rather than
raising; and equal sequences have equal hashes. -/
theorem C9_eq_structural (x y : bits) (m : Bool) :
    (py_eq x (.seq m y) = true ↔ x._len = y._len ∧ x._bytes = y._bytes) ∧
    (∀ o : pyobj, o.isSeq = false → py_eq x o = false) ∧
    (py_eq x (.seq m y) = true → py_hash x = py_hash y) := by
  refine ⟨?_, ?_, ?_⟩
  · simp [py_eq]
  · intro o ho
    cases o <;> simp_all [py_eq, pyobj.isSeq]
  · intro h
    simp only [py_eq, Bool.and_eq_true, beq_iff_eq] at h
    simp [py_hash, h.1, h.2]

theorem C9_eq_structural_witness :
    py_eq ⟨4, [10]⟩ (.seq true ⟨4, [10]⟩) = true ∧
    py_eq ⟨4, [10]⟩ (.intv 10) = false ∧
    py_hash ⟨4, [10]⟩ = py_hash ⟨4, [10]⟩ := by
  refine ⟨?_, ?_, ?_⟩
  · exact (C9_eq_structural ⟨4, [10]⟩ ⟨4, [10]⟩ true).1.mpr ⟨rfl, rfl⟩
  · exact (C9_eq_structural ⟨4, [10]⟩ ⟨4, [10]⟩ true).2.1 (.intv 10) rfl
  · exact (C9_eq_structural ⟨4, [10]⟩ ⟨4, [10]⟩ true).2.2 (by decide)

/-! ## Claim C10: the effective in-place reverse is a byte-group reversal -/

/-- C10: the effective `bitarray.reverse` (the second, shadowing definition) never
reverses the whole sequence: on a byte-aligned length it reverses the bit order
inside each storage byte while keeping the byte order (bit `i` of the result is bit
`8 * (i / 8) + (7 - i % 8)` of the input), and on a non-aligned length it raises
`ValueError`, leaving the sequence unchanged. -/
theorem C10_reverse_is_byte_group (a : bits) (h : WF a) :
    (a._len % 8 = 0 →
      bitarray_reverse a = .ok ⟨a._len, a._bytes.map _byterev⟩ ∧
      ∀ i < a._len, getBit ⟨a._len, a._bytes.map _byterev⟩ i
        = getBit a (8 * (i / 8) + (7 - i % 8))) ∧
    (a._len % 8 ≠ 0 →
      bitarray_reverse a
        = .error "byte_reverse requires a bitstream of length divisible by 8") := by
  constructor
  · intro hal
    refine ⟨by simp [bitarray_reverse, hal], ?_⟩
    intro i hi
    have hib : i / 8 < a._bytes.length := by
      rw [h.1]; unfold byteLen; omega
    have h78 : (8 * (i / 8) + (7 - i % 8)) / 8 = i / 8 := by omega
    have h78m : (8 * (i / 8) + (7 - i % 8)) % 8 = 7 - i % 8 := by omega
    unfold getBit
    simp only [h78, h78m]
    rw [getD_map _ _ _ hib]
    exact byterev_bit _ _ (Nat.mod_lt _ (by norm_num))
  · intro hal
    simp [bitarray_reverse, hal]

theorem C10_reverse_witness :
    bitarray_reverse ⟨8, [1]⟩ = .ok ⟨8, [128]⟩ ∧
    bitarray_reverse ⟨3, [5]⟩
      = .error "byte_reverse requires a bitstream of length divisible by 8" := by
  constructor
  · have h := (C10_reverse_is_byte_group ⟨8, [1]⟩ (by decide)).1 rfl
    rw [h.1]; decide
  · exact (C10_reverse_is_byte_group ⟨3, [5]⟩ (by decide)).2 (by decide)

/-! ## Claim C7: bitwise AND / OR / XOR -/

lemma bitop_bit (op : Nat → Nat → Nat) (x y : bits) (i : Nat)
    (hx : WF x) (hy : WF y) (hlen : x._len = y._len) (hi : i < x._len) :
    getBit ⟨x._len, List.zipWith op x._bytes y._bytes⟩ i
      = op (x._bytes.getD (i / 8) 0) (y._bytes.getD (i / 8) 0) >>> (i % 8) &&& 1 := by
  have h1 : i / 8 < x._bytes.length := by rw [hx.1]; unfold byteLen; omega
  have h2 : i / 8 < y._bytes.length := by rw [hy.1, ← hlen]; unfold byteLen; omega
  unfold getBit
  rw [zipWith_getD op _ _ _ h1 h2]

/-- C7: on equal-length operands the bitwise operators produce a sequence of the
same length whose bit `i` is the per-bit truth-table combination of the operands'
bits `i`; on operands of different lengths all three raise the width-mismatch
error. -/
theorem C7_bitwise_truth_tables (x y : bits) (hx : WF x) (hy : WF y) :
    (x._len = y._len →
      ∃ ra rb rc, andB x y = .ok ra ∧ orB x y = .ok rb ∧ xorB x y = .ok rc ∧
        ra._len = x._len ∧ rb._len = x._len ∧ rc._len = x._len ∧
        ∀ i < x._len,
          (getBit ra i = if getBit x i = 1 ∧ getBit y i = 1 then 1 else 0) ∧
          (getBit rb i = if getBit x i = 1 ∨ getBit y i = 1 then 1 else 0) ∧
          (getBit rc i = if getBit x i ≠ getBit y i then 1 else 0)) ∧
    (x._len ≠ y._len →
      andB x y = .error "mismatched bitwise operator widths" ∧
      orB x y = .error "mismatched bitwise operator widths" ∧
      xorB x y = .error "mismatched bitwise operator widths") := by
  constructor
  · intro hlen
    refine ⟨⟨x._len, List.zipWith (· &&& ·) x._bytes y._bytes⟩,
            ⟨x._len, List.zipWith (· ||| ·) x._bytes y._bytes⟩,
            ⟨x._len, List.zipWith (· ^^^ ·) x._bytes y._bytes⟩,
            ?_, ?_, ?_, rfl, rfl, rfl, ?_⟩
    · simp [andB, _bitop, hlen]
    · simp [orB, _bitop, hlen]
    · simp [xorB, _bitop, hlen]
    · intro i hi
      have hax := bitop_bit (· &&& ·) x y i hx hy hlen hi
      have hox := bitop_bit (· ||| ·) x y i hx hy hlen hi
      have hxx := bitop_bit (· ^^^ ·) x y i hx hy hlen hi
      have hgx : getBit x i = if (x._bytes.getD (i / 8) 0).testBit (i % 8) then 1 else 0 := by
        unfold getBit; exact getBit_ite_testBit _ _
      have hgy : getBit y i = if (y._bytes.getD (i / 8) 0).testBit (i % 8) then 1 else 0 := by
        unfold getBit; exact getBit_ite_testBit _ _
      refine ⟨?_, ?_, ?_⟩
      · rw [hax, getBit_ite_testBit, Nat.testBit_and, hgx, hgy]
        cases hbx : (x._bytes.getD (i / 8) 0).testBit (i % 8) <;>
          cases hby : (y._bytes.getD (i / 8) 0).testBit (i % 8) <;> simp
      · rw [hox, getBit_ite_testBit, Nat.testBit_or, hgx, hgy]
        cases hbx : (x._bytes.getD (i / 8) 0).testBit (i % 8) <;>
          cases hby : (y._bytes.getD (i / 8) 0).testBit (i % 8) <;> simp
      · rw [hxx, getBit_ite_testBit, Nat.testBit_xor, hgx, hgy]
        cases hbx : (x._bytes.getD (i / 8) 0).testBit (i % 8) <;>
          cases hby : (y._bytes.getD (i / 8) 0).testBit (i % 8) <;> simp
  · intro hlen
    have h' : y._len ≠ x._len := fun h => hlen h.symm
    refine ⟨?_, ?_, ?_⟩ <;> simp [andB, orB, xorB, _bitop, h']

theorem C7_bitwise_witness :
    (∃ ra, andB ⟨4, [10]⟩ ⟨4, [12]⟩ = .ok ra ∧ ra._len = 4) ∧
    andB ⟨4, [10]⟩ ⟨5, [12]⟩ = .error "mismatched bitwise operator widths" := by
  constructor
  · obtain ⟨ra, rb, rc, h1, h2, h3, h4, h5⟩ :=
      (C7_bitwise_truth_tables ⟨4, [10]⟩ ⟨4, [12]⟩ (by decide) (by decide)).1 rfl
    exact ⟨ra, h1, h4⟩
  · exact ((C7_bitwise_truth_tables ⟨4, [10]⟩ ⟨5, [12]⟩ (by decide) (by decide)).2
      (by decide)).1

/-! ## Repacking: from_iter of a sequence's own bits rebuilds the sequence -/

lemma byteOfBits_cons (a : Nat) (l : List Nat) :
    byteOfBits (a :: l) = a + 2 * byteOfBits l := rfl

lemma byteOfBits_range (k b : Nat) :
    byteOfBits ((List.range k).map (fun i => b >>> i &&& 1)) = b % 2 ^ k := by
  induction k generalizing b with
  | zero => simp [byteOfBits, Nat.mod_one]
  | succ k ih =>
    rw [List.range_succ_eq_map, List.map_cons, List.map_map]
    have hcomp : ((fun i => b >>> i &&& 1) ∘ Nat.succ) = (fun i => (b / 2) >>> i &&& 1) := by
      funext i
      simp only [Function.comp_apply]
      rw [getBitNat_eq, getBitNat_eq, Nat.pow_succ, Nat.mul_comm (2 ^ i) 2,
        ← Nat.div_div_eq_div_mul]
    have hsplit : b % 2 ^ (k + 1) = b % 2 + 2 * (b / 2 % 2 ^ k) := by
      rw [Nat.pow_succ, Nat.mul_comm (2 ^ k) 2, Nat.mod_mul]
    rw [hcomp, byteOfBits_cons, ih (b / 2), hsplit, getBitNat_eq]
    norm_num

lemma range_map_split (n : Nat) (h : 8 ≤ n) (f : Nat → Nat) :
    (List.range n).map f
      = (List.range 8).map f ++ (List.range (n - 8)).map (fun i => f (8 + i)) := by
  conv_lhs => rw [show n = 8 + (n - 8) by omega]
  rw [List.range_add, List.map_append, List.map_map]
  rfl

lemma packBitsN_succ (k : Nat) (l : List Nat) :
    packBitsN (k + 1) l = byteOfBits (l.take 8) :: packBitsN k (l.drop 8) := rfl

lemma packBitsN_repack (bs : List Nat) : ∀ (n : Nat),
    bs.length = byteLen n →
    (∀ b ∈ bs, b < 256) →
    (n % 8 ≠ 0 → bs.getLast?.getD 0 < 2 ^ (n % 8)) →
    packBitsN bs.length
      ((List.range n).map (fun i => (bs.getD (i / 8) 0) >>> (i % 8) &&& 1)) = bs := by
  induction bs with
  | nil =>
    intro n hlen hb hpad
    have hn : n = 0 := by unfold byteLen at hlen; simp at hlen; omega
    subst hn
    simp [packBitsN]
  | cons b rest ih =>
    intro n hlen hb hpad
    have hlen' : rest.length + 1 = byteLen n := by simpa using hlen
    have hn1 : 8 * rest.length < n ∧ n ≤ 8 * rest.length + 8 := by
      unfold byteLen at hlen'; omega
    have hbmem : b < 256 := hb b (List.mem_cons_self _ _)
    cases rest with
    | nil =>
      have hn : 1 ≤ n ∧ n ≤ 8 := by simpa using hn1
      have hmap : (List.range n).map (fun i => (([b] : List Nat).getD (i / 8) 0) >>> (i % 8) &&& 1)
          = (List.range n).map (fun i => b >>> i &&& 1) := by
        apply List.map_congr_left
        intro i hi
        have hin : i < n := List.mem_range.mp hi
        have hi8 : i / 8 = 0 := by omega
        have him : i % 8 = i := by omega
        rw [hi8, him]
        rfl
      show packBitsN 1 _ = [b]
      rw [hmap]
      simp only [packBitsN]
      rw [List.take_of_length_le (by simp; omega), byteOfBits_range]
      by_cases h8 : n = 8
      · subst h8
        norm_num [Nat.mod_eq_of_lt hbmem]
      · have hlt : b < 2 ^ n := by
          have := hpad (by omega)
          simpa [show n % 8 = n by omega] using this
        rw [Nat.mod_eq_of_lt hlt]
    | cons r rest2 =>
      simp only [List.length_cons] at hn1
      have hn8 : 8 < n := by omega
      rw [range_map_split n (by omega) _]
      have hL : ((b :: r :: rest2) : List Nat).length = rest2.length + 1 + 1 := by simp
      rw [hL, packBitsN_succ]
      have hlen8 : ((List.range 8).map
          (fun i => (((b :: r :: rest2) : List Nat).getD (i / 8) 0) >>> (i % 8) &&& 1)).length
            = 8 := by simp
      rw [List.take_left' hlen8, List.drop_left' hlen8, List.cons_eq_cons]
      refine ⟨?_, ?_⟩
      · have hmap8 : (List.range 8).map
            (fun i => (((b :: r :: rest2) : List Nat).getD (i / 8) 0) >>> (i % 8) &&& 1)
              = (List.range 8).map (fun i => b >>> i &&& 1) := by
          apply List.map_congr_left
          intro i hi
          have hin : i < 8 := List.mem_range.mp hi
          have hi8 : i / 8 = 0 := by omega
          have him : i % 8 = i := by omega
          rw [hi8, him]
          rfl
        rw [hmap8, byteOfBits_range]
        norm_num [Nat.mod_eq_of_lt hbmem]
      · have hshift : (List.range (n - 8)).map
            (fun i => (((b :: r :: rest2) : List Nat).getD ((8 + i) / 8) 0) >>> ((8 + i) % 8) &&& 1)
              = (List.range (n - 8)).map
                (fun i => (((r :: rest2) : List Nat).getD (i / 8) 0) >>> (i % 8) &&& 1) := by
          apply List.map_congr_left
          intro i hi
          have h1 : (8 + i) / 8 = i / 8 + 1 := by omega
          have h2 : (8 + i) % 8 = i % 8 := by omega
          rw [h1, h2]
          rfl
        rw [hshift]
        have hih := ih (n - 8)
          (by unfold byteLen at hlen' ⊢; simp at hlen' ⊢; omega)
          (fun c hc => hb c (List.mem_cons_of_mem _ hc))
          (by
            intro hne
            have hmod : (n - 8) % 8 = n % 8 := by omega
            rw [hmod]
            have := hpad (by omega)
            rwa [List.getLast?_cons_cons] at this)
        simpa using hih

lemma from_iter_toBitsList (x : bits) (h : WF x) : from_iter (toBitsList x) = x := by
  obtain ⟨n, bs⟩ := x
  obtain ⟨h1, h2, h3⟩ := h
  simp only at h1 h2 h3
  unfold from_iter toBitsList packBits
  simp only [List.length_map, List.length_range]
  rw [bits.mk.injEq]
  refine ⟨rfl, ?_⟩
  rw [← h1]
  exact packBitsN_repack bs n h1 h2 h3

/-! ## Claim C8: string round-trip -/

/-- C8: converting a sequence to its most-significant-bit-first textual form and
parsing the text back yields an equal sequence. -/
theorem C8_string_roundtrip (x : bits) (h : WF x) : from_str (to_str x) = .ok x := by
  have hbits : ∀ b ∈ toBitsList x, b ≤ 1 := by
    intro b hb
    obtain ⟨i, _, rfl⟩ := List.mem_map.mp hb
    exact getBit_le_one x i
  unfold to_str from_str
  have hmem : ∀ c ∈ (toBitsList x).reverse.map bitChar,
      (c = '0' ∨ c = '1') ∧ isSepChar c = false := by
    intro c hc
    obtain ⟨b, hb, rfl⟩ := List.mem_map.mp hc
    unfold bitChar
    split <;> exact ⟨by simp, by decide⟩
  have hfilter : ((toBitsList x).reverse.map bitChar).filter (fun c => !isSepChar c)
      = (toBitsList x).reverse.map bitChar := by
    apply List.filter_eq_self.mpr
    intro c hc
    rw [(hmem c hc).2]
    rfl
  have hall : ((toBitsList x).reverse.map bitChar).all (fun c => c = '0' || c = '1') = true := by
    rw [List.all_eq_true]
    intro c hc
    rcases (hmem c hc).1 with h0 | h1
    · simp [h0]
    · simp [h1]
  show (if _ then _ else _) = _
  simp only [String.data]
  rw [hfilter]
  rw [if_pos hall]
  have hback : ((toBitsList x).reverse.map bitChar).reverse.map
      (fun c => if c = '1' then 1 else 0) = toBitsList x := by
    rw [← List.map_reverse, List.reverse_reverse, List.map_map]
    have hpt : ∀ b ∈ toBitsList x,
        ((fun c => if c = '1' then 1 else 0) ∘ bitChar) b = id b := by
      intro b hb
      have := hbits b hb
      interval_cases b <;> rfl
    rw [List.map_congr_left hpt, List.map_id]
  rw [hback, from_iter_toBitsList x h]

theorem C8_string_roundtrip_witness :
    from_str (to_str ⟨4, [10]⟩) = .ok ⟨4, [10]⟩ :=
  C8_string_roundtrip ⟨4, [10]⟩ (by decide)

/-! ## Well-formedness lemmas for the mutation operations (claim C2) -/

lemma byteOfBits_lt (l : List Nat) (h : ∀ b ∈ l, b ≤ 1) :
    byteOfBits l < 2 ^ l.length := by
  induction l with
  | nil => simp [byteOfBits]
  | cons a t ih =>
    have ha : a ≤ 1 := h a (List.mem_cons_self _ _)
    have ht := ih (fun b hb => h b (List.mem_cons_of_mem _ hb))
    rw [byteOfBits_cons]
    have hp : (2 : Nat) ^ (a :: t).length = 2 * 2 ^ t.length := by
      simp [List.length_cons, Nat.pow_succ]
      ring
    omega

lemma packBitsN_length (k : Nat) (l : List Nat) : (packBitsN k l).length = k := by
  induction k generalizing l with
  | zero => rfl
  | succ k ih => simp [packBitsN_succ, ih]

lemma packBitsN_lt (k : Nat) (l : List Nat) (h : ∀ b ∈ l, b ≤ 1) :
    ∀ b ∈ packBitsN k l, b < 256 := by
  induction k generalizing l with
  | zero => simp [packBitsN]
  | succ k ih =>
    intro b hb
    rw [packBitsN_succ] at hb
    rcases List.mem_cons.mp hb with hb | hb
    · subst hb
      have h1 : byteOfBits (l.take 8) < 2 ^ (l.take 8).length :=
        byteOfBits_lt _ (fun c hc => h c (List.mem_of_mem_take hc))
      have h2 : (l.take 8).length ≤ 8 := by simp
      calc byteOfBits (l.take 8) < 2 ^ (l.take 8).length := h1
        _ ≤ 2 ^ 8 := Nat.pow_le_pow_right (by norm_num) h2
        _ = 256 := by norm_num
    · exact ih (l.drop 8) (fun c hc => h c (List.mem_of_mem_drop hc)) b hb

lemma packBitsN_getLast (k : Nat) (l : List Nat) (h : ∀ b ∈ l, b ≤ 1)
    (hk : byteLen l.length = k) (hne : l.length % 8 ≠ 0) :
    (packBitsN k l).getLast?.getD 0 < 2 ^ (l.length % 8) := by
  induction k generalizing l with
  | zero =>
    exfalso
    unfold byteLen at hk
    omega
  | succ k ih =>
    rw [packBitsN_succ]
    by_cases hk0 : k = 0
    · subst hk0
      have hlen : 1 ≤ l.length ∧ l.length ≤ 8 := by unfold byteLen at hk; omega
      have hl8 : l.length % 8 = l.length := by omega
      show ((byteOfBits (l.take 8)) :: packBitsN 0 (l.drop 8)).getLast?.getD 0 < _
      have htake : l.take 8 = l := List.take_of_length_le (by omega)
      simp only [packBitsN, List.getLast?_singleton, Option.getD_some, htake, hl8]
      exact byteOfBits_lt l h
    · have hk1 : 1 ≤ k := by omega
      have hlen9 : 9 ≤ l.length := by unfold byteLen at hk; omega
      have hdlen : (l.drop 8).length = l.length - 8 := by simp
      have htail := ih (l.drop 8) (fun c hc => h c (List.mem_of_mem_drop hc))
        (by rw [hdlen]; unfold byteLen at hk ⊢; omega)
        (by rw [hdlen]; omega)
      obtain ⟨a, t, ht⟩ : ∃ a t, packBitsN k (l.drop 8) = a :: t := by
        cases hpk : packBitsN k (l.drop 8) with
        | nil =>
          have := packBitsN_length k (l.drop 8)
          rw [hpk] at this
          simp at this
          omega
        | cons a t => exact ⟨a, t, rfl⟩
      rw [ht, List.getLast?_cons_cons, ← ht]
      have hmod : (l.drop 8).length % 8 = l.length % 8 := by
        rw [hdlen]; omega
      rwa [hmod] at htail

lemma WF_from_iter (l : List Nat) (h : ∀ b ∈ l, b ≤ 1) : WF (from_iter l) := by
  refine ⟨?_, ?_, ?_⟩
  · show (packBits l).length = byteLen l.length
    exact packBitsN_length _ _
  · exact packBitsN_lt _ _ h
  · intro hne
    exact packBitsN_getLast _ _ h rfl hne

lemma WF_empty : WF ⟨0, []⟩ := by decide

lemma toBitsList_le_one (x : bits) : ∀ b ∈ toBitsList x, b ≤ 1 := by
  intro b hb
  obtain ⟨i, _, rfl⟩ := List.mem_map.mp hb
  exact getBit_le_one x i

lemma toBitsList_length (x : bits) : (toBitsList x).length = x._len := by
  simp [toBitsList]


/-- A successful single-bit assignment writes one byte of the storage: either the
set-bit form `b | (1 << (i % 8))` or the clear-bit form `b & ~(1 << (i % 8))`
(written `b - (b &&& (1 <<< (i % 8)))`), at an index `i < len`. -/
lemma setitem_int_ok_shape (a : bits) (k v : Int) (b : bits)
    (h : setitem_int a k v = .ok b) :
    ∃ i : Nat, i < a._len ∧
      (b = ⟨a._len, a._bytes.set (i / 8) ((a._bytes.getD (i / 8) 0) ||| (1 <<< (i % 8)))⟩ ∨
       b = ⟨a._len, a._bytes.set (i / 8)
         ((a._bytes.getD (i / 8) 0) - ((a._bytes.getD (i / 8) 0) &&& (1 <<< (i % 8))))⟩) := by
  unfold setitem_int at h
  dsimp only at h
  by_cases hv : v ≠ 0 ∧ v ≠ 1
  · rw [if_pos hv] at h
    simp at h
  rw [if_neg hv] at h
  set key : Int := if k < 0 then k + a._len else k with hkey
  by_cases hb2 : key < 0 ∨ (a._len : Int) ≤ key
  · rw [if_pos hb2] at h
    simp at h
  rw [if_neg hb2] at h
  have hklen : key.toNat < a._len := by omega
  by_cases hv1 : v = 1
  · rw [if_pos hv1] at h
    simp only [Except.ok.injEq] at h
    exact ⟨key.toNat, hklen, Or.inl h.symm⟩
  · rw [if_neg hv1] at h
    simp only [Except.ok.injEq] at h
    exact ⟨key.toNat, hklen, Or.inr h.symm⟩

/-- Preservation of the invariant by single-bit assignment. -/
lemma WF_setitem_int (a : bits) (k v : Int) (b : bits)
    (ha : WF a) (h : setitem_int a k v = .ok b) : WF b := by
  obtain ⟨i, hilen, hshape⟩ := setitem_int_ok_shape a k v b h
  have hib : i / 8 < a._bytes.length := by
    rw [ha.1]; unfold byteLen; omega
  have hmem8 : a._bytes.getD (i / 8) 0 ∈ a._bytes := getD_mem _ _ hib
  have hb256 : a._bytes.getD (i / 8) 0 < 256 := ha.2.1 _ hmem8
  have hsh : (1 : Nat) <<< (i % 8) = 2 ^ (i % 8) := by
    rw [Nat.shiftLeft_eq, Nat.one_mul]
  have hkey8 : a._len % 8 ≠ 0 → i / 8 = a._bytes.length - 1 → i % 8 < a._len % 8 := by
    intro hne hl
    rw [ha.1] at hl
    unfold byteLen at hl
    omega
  have hlastb : a._len % 8 ≠ 0 → i / 8 = a._bytes.length - 1 →
      a._bytes.getD (i / 8) 0 < 2 ^ (a._len % 8) := by
    intro hne hl
    have := ha.2.2 hne
    rw [getLastD_eq_getD] at this
    rwa [hl]
  rcases hshape with rfl | rfl
  · refine ⟨by simpa using ha.1, ?_, ?_⟩
    · intro c hc
      simp only at hc
      rcases List.mem_or_eq_of_mem_set hc with hc | hc
      · exact ha.2.1 c hc
      · subst hc
        rw [hsh]
        exact Nat.or_lt_two_pow (n := 8) hb256
          (Nat.pow_lt_pow_right (by norm_num) (by omega))
    · intro hne
      simp only at hne ⊢
      rw [getLastD_eq_getD, List.length_set, getD_set]
      split
      next hcond =>
        rw [hsh]
        exact Nat.or_lt_two_pow (hlastb hne hcond.1)
          (Nat.pow_lt_pow_right (by norm_num) (hkey8 hne hcond.1))
      next =>
        have := ha.2.2 hne
        rwa [getLastD_eq_getD] at this
  · refine ⟨by simpa using ha.1, ?_, ?_⟩
    · intro c hc
      simp only at hc
      rcases List.mem_or_eq_of_mem_set hc with hc | hc
      · exact ha.2.1 c hc
      · subst hc
        have := Nat.sub_le (a._bytes.getD (i / 8) 0)
          ((a._bytes.getD (i / 8) 0) &&& (1 <<< (i % 8)))
        omega
    · intro hne
      simp only at hne ⊢
      rw [getLastD_eq_getD, List.length_set, getD_set]
      split
      next hcond =>
        have h1 := hlastb hne hcond.1
        have := Nat.sub_le (a._bytes.getD (i / 8) 0)
          ((a._bytes.getD (i / 8) 0) &&& (1 <<< (i % 8)))
        omega
      next =>
        have := ha.2.2 hne
        rwa [getLastD_eq_getD] at this

lemma except_bind_ok {α β : Type} (s : α) (f : α → Except String β) :
    (Except.ok s >>= f) = f s := rfl

lemma except_bind_error {α β : Type} (e : String) (f : α → Except String β) :
    ((Except.error e : Except String α) >>= f) = Except.error e := rfl

/-- Preservation of the invariant by a loop of single-bit assignments
(`for di, bit in zip(rng, value): self[di] = bit`). -/
lemma WF_fold_setitem (ps : List (Int × Nat)) (a b : bits) (ha : WF a)
    (h : ps.foldlM (fun s p => setitem_int s p.1 (p.2 : Int)) a = .ok b) : WF b := by
  induction ps generalizing a with
  | nil =>
    simp only [List.foldlM_nil, pure, Except.pure] at h
    cases h
    exact ha
  | cons p t ih =>
    rw [List.foldlM_cons] at h
    cases hs : setitem_int a p.1 (p.2 : Int) with
    | error e =>
      rw [hs, except_bind_error] at h
      exact absurd h (by simp)
    | ok s =>
      rw [hs, except_bind_ok] at h
      exact ih s (WF_setitem_int a p.1 (p.2 : Int) s ha hs) h

/-- A successful `_resize` never grows (growth raises `TypeError`), and the result
carries exactly the requested length. -/
lemma resize_ok (a : bits) (n : Nat) (b : bits) (h : _resize a n = .ok b) :
    b._len = n ∧ n ≤ a._len := by
  unfold _resize at h
  split_ifs at h <;> simp only [Except.ok.injEq] at h <;> subst h
  · exact ⟨rfl, by omega⟩
  · exact ⟨rfl, by omega⟩

lemma mapLast_length (f : Nat → Nat) (l : List Nat) : (mapLast f l).length = l.length := by
  induction l with
  | nil => rfl
  | cons a t ih =>
    cases t with
    | nil => rfl
    | cons b t2 => simpa [mapLast] using ih

lemma mapLast_mem_le (f : Nat → Nat) (hf : ∀ x, f x ≤ x) (l : List Nat) :
    ∀ c ∈ mapLast f l, ∃ d ∈ l, c ≤ d := by
  induction l with
  | nil => simp [mapLast]
  | cons a t ih =>
    cases t with
    | nil =>
      intro c hc
      simp only [mapLast, List.mem_singleton] at hc
      exact ⟨a, by simp, hc ▸ hf a⟩
    | cons b t2 =>
      intro c hc
      rcases List.mem_cons.mp hc with hc | hc
      · exact ⟨a, by simp [hc]⟩
      · obtain ⟨d, hd, hcd⟩ := ih c hc
        exact ⟨d, List.mem_cons_of_mem _ hd, hcd⟩

/-- Preservation of the invariant by a successful shrink to a byte-aligned length
(or a no-op resize to the current length).  A shrink to an UNALIGNED length can
break the padding invariant, because `_fix_padding` runs while `_len` still holds
the old length; those states never survive a completed mutation (see the slow-path
analysis in `WF_setitem_slice`). -/
lemma WF_resize (a : bits) (n : Nat) (b : bits) (ha : WF a)
    (hn : n % 8 = 0 ∨ n = a._len) (h : _resize a n = .ok b) : WF b := by
  unfold _resize at h
  split_ifs at h with h1 h2 <;> simp only [Except.ok.injEq] at h <;> subst h
  · -- shrink: take then _fix_padding at the old length
    have hlen : (_fix_padding ⟨a._len, a._bytes.take (byteLen n)⟩)._bytes.length
        = byteLen n := by
      unfold _fix_padding
      split <;> simp only [mapLast_length, List.length_take]
      · rw [ha.1]
        unfold byteLen
        omega
      · rw [ha.1]
        unfold byteLen
        omega
    have hmem : ∀ c ∈ (_fix_padding ⟨a._len, a._bytes.take (byteLen n)⟩)._bytes, c < 256 := by
      unfold _fix_padding
      split
      · intro c hc
        simp only at hc
        obtain ⟨d, hd, hcd⟩ := mapLast_mem_le _ (fun x => Nat.and_le_left) _ c hc
        exact lt_of_le_of_lt hcd (ha.2.1 d (List.mem_of_mem_take hd))
      · intro c hc
        exact ha.2.1 c (List.mem_of_mem_take hc)
    rcases hn with hn8 | hnlen
    · exact ⟨hlen, hmem, fun hne => absurd hn8 hne⟩
    · exact absurd hnlen (by omega)
  · have : n = a._len := by omega
    subst this
    exact ha

/-- The three ways a `self += value` extend can succeed. -/
lemma extend_cases (s v t : bits) (h : extend_bits s v = .ok t) :
    (s._len % 8 = 0 ∧ v._len % 8 = 0 ∧
       t = ⟨(s._bytes ++ v._bytes).length * 8, s._bytes ++ v._bytes⟩) ∨
    (s._len % 8 = 0 ∧ t = ⟨s._len + v._len, s._bytes ++ v._bytes⟩) ∨
    (s._len % 8 ≠ 0 ∧ v._len = 0 ∧ t = s) := by
  unfold extend_bits at h
  by_cases h1 : s._len % 8 = 0 ∧ v._len % 8 = 0
  · rw [if_pos h1] at h
    simp only [Except.ok.injEq] at h
    exact Or.inl ⟨h1.1, h1.2, h.symm⟩
  rw [if_neg h1] at h
  by_cases h2 : s._len % 8 = 0
  · rw [if_pos h2] at h
    simp only [Except.ok.injEq] at h
    exact Or.inr (Or.inl ⟨h2, h.symm⟩)
  rw [if_neg h2] at h
  by_cases h3 : v._len = 0
  · rw [if_pos h3] at h
    simp only [Except.ok.injEq] at h
    exact Or.inr (Or.inr ⟨h2, h3, h.symm⟩)
  · rw [if_neg h3] at h
    simp at h

/-- A successful extend of an unaligned receiver forces the appended value to be
empty and leaves the receiver unchanged. -/
lemma extend_ok_unaligned (s v t : bits) (hs : s._len % 8 ≠ 0)
    (h : extend_bits s v = .ok t) : v._len = 0 ∧ t = s := by
  rcases extend_cases s v t h with ⟨ha1, _, _⟩ | ⟨ha1, _⟩ | ⟨_, hv0, ht⟩
  · exact absurd ha1 hs
  · exact absurd ha1 hs
  · exact ⟨hv0, ht⟩

/-- Preservation of the invariant by a successful extend (`self += value`). -/
lemma WF_extend (s v t : bits) (hs : WF s) (hv : WF v)
    (h : extend_bits s v = .ok t) : WF t := by
  rcases extend_cases s v t h with ⟨ha1, ha2, rfl⟩ | ⟨ha1, rfl⟩ | ⟨_, _, rfl⟩
  · refine ⟨?_, ?_, ?_⟩
    · simp only [List.length_append]
      unfold byteLen
      omega
    · intro c hc
      simp only [List.mem_append] at hc
      rcases hc with hc | hc
      · exact hs.2.1 c hc
      · exact hv.2.1 c hc
    · intro hne
      simp only at hne
      omega
  · refine ⟨?_, ?_, ?_⟩
    · simp only [List.length_append, hs.1, hv.1]
      unfold byteLen
      omega
    · intro c hc
      simp only [List.mem_append] at hc
      rcases hc with hc | hc
      · exact hs.2.1 c hc
      · exact hv.2.1 c hc
    · intro hne
      simp only at hne ⊢
      have hvne : v._len % 8 ≠ 0 := by omega
      have hvbytes : v._bytes ≠ [] := by
        intro hnil
        have hl := hv.1
        rw [hnil] at hl
        simp only [List.length_nil] at hl
        unfold byteLen at hl
        omega
      rw [List.getLast?_append]
      cases hvl : v._bytes.getLast? with
      | none => exact absurd (List.getLast?_eq_none_iff.mp hvl) hvbytes
      | some c =>
        simp only [Option.or_some, Option.getD_some]
        have hvp := hv.2.2 hvne
        rw [hvl] at hvp
        simp only [Option.getD_some] at hvp
        have hmodeq : (s._len + v._len) % 8 = v._len % 8 := by omega
        rwa [hmodeq]
  · exact hs

lemma getD_drop (l : List Nat) (k i : Nat) : (l.drop k).getD i 0 = l.getD (k + i) 0 := by
  rw [List.getD_eq_getElem?_getD, List.getD_eq_getElem?_getD, List.getElem?_drop]

lemma from_iter_len (l : List Nat) : (from_iter l)._len = l.length := rfl

lemma toNat_ediv_eight (a : Int) (h : 0 ≤ a) : (a / 8).toNat = a.toNat / 8 := by
  obtain ⟨n, rfl⟩ := Int.eq_ofNat_of_zero_le h
  norm_cast

/-- Normalization of the tail slice `a[s:]` for non-negative `s` and `step = 1`. -/
lemma sliceIndices_tail (s : Int) (hs : 0 ≤ s) (L : Nat) :
    sliceIndices (some s) none 1 L = (min s L, (L : Int), 1) := by
  unfold sliceIndices
  have h1 : ¬((1 : Int) < 0) := by norm_num
  have h2 : ¬(s < 0) := by omega
  simp only [h1, if_false, h2, if_neg]

lemma pyRangeLen_one (start stop : Int) : pyRangeLen start stop 1 = (stop - start).toNat := by
  unfold pyRangeLen
  norm_num

lemma pyRangeList_length (start stop step : Int) :
    (pyRangeList start stop step).length = pyRangeLen start stop step := by
  unfold pyRangeList
  rw [List.length_map, List.length_range]

/-- The tail slice `a[s:]` (with `0 ≤ s`) of a well-formed sequence is well-formed
and has length `len - s`. -/
lemma getitem_tail (a : bits) (s : Int) (hs : 0 ≤ s) (ha : WF a) :
    WF (getitem_slice a (some s) none 1) ∧
      (getitem_slice a (some s) none 1)._len = a._len - s.toNat := by
  unfold getitem_slice
  rw [sliceIndices_tail s hs a._len]
  dsimp only
  rw [pyRangeLen_one]
  set L : Int := (a._len : Int) with hL
  have hS0 : 0 ≤ min s L := by omega
  obtain ⟨S, hScast⟩ := Int.eq_ofNat_of_zero_le hS0
  have hSL : S ≤ a._len := by omega
  have hSs : S = min s.toNat a._len := by omega
  rw [hScast]
  by_cases hempty : ((L : Int) - (S : Int)).toNat = 0
  · rw [if_pos hempty]
    refine ⟨WF_empty, ?_⟩
    simp only
    omega
  rw [if_neg hempty]
  have hguardneg : ¬((1 : Int) = -1 ∧ ((S : Int)).emod 8 = 7 ∧ L.emod 8 = 7) := by
    rintro ⟨h1, -⟩
    norm_num at h1
  rw [if_neg hguardneg]
  by_cases halign : ((S : Int)).emod 8 = 0
  · have hguard : (1 : Int) = 1 ∧ ((S : Int)).emod 8 = 0 ∧ (L.emod 8 = 0 ∨ L = (a._len : Int)) :=
      ⟨rfl, halign, Or.inr rfl⟩
    rw [if_pos hguard]
    have halign' : (S : Int) % 8 = 0 := halign
    have hS8 : S % 8 = 0 := by exact_mod_cast halign'
    have hd1 : (((S : Int)).fdiv 8).toNat = S / 8 := by
      rw [Int.fdiv_eq_ediv _ (by norm_num), toNat_ediv_eight _ (by omega)]
      simp
    have hd2 : ((L + 7).fdiv 8).toNat = byteLen a._len := by
      rw [Int.fdiv_eq_ediv _ (by norm_num), toNat_ediv_eight _ (by omega)]
      unfold byteLen
      omega
    rw [hd1, hd2]
    have hdroplen : (a._bytes.drop (S / 8)).length = byteLen a._len - S / 8 := by
      simp [ha.1]
    have htake : (a._bytes.drop (S / 8)).take (byteLen a._len - S / 8)
        = a._bytes.drop (S / 8) := by
      apply List.take_of_length_le
      omega
    rw [htake]
    refine ⟨⟨?_, ?_, ?_⟩, ?_⟩
    · simp only
      rw [hdroplen]
      unfold byteLen
      omega
    · intro c hc
      exact ha.2.1 c (List.mem_of_mem_drop hc)
    · intro hne
      simp only at hne ⊢
      have hmod : ((L - (S : Int)).toNat) % 8 = a._len % 8 := by omega
      rw [hmod] at hne ⊢
      have hSlt : S < a._len := by omega
      rw [getLastD_eq_getD, getD_drop]
      have hidx : S / 8 + ((a._bytes.drop (S / 8)).length - 1) = a._bytes.length - 1 := by
        rw [hdroplen, ha.1]
        unfold byteLen
        omega
      rw [hidx, ← getLastD_eq_getD]
      exact ha.2.2 hne
    · simp only
      omega
  · have hguardneg2 : ¬((1 : Int) = 1 ∧ ((S : Int)).emod 8 = 0 ∧
        (L.emod 8 = 0 ∨ L = (a._len : Int))) := by
      rintro ⟨-, hc, -⟩
      exact halign hc
    rw [if_neg hguardneg2]
    refine ⟨WF_from_iter _ ?_, ?_⟩
    · intro c hc
      obtain ⟨i, _, rfl⟩ := List.mem_map.mp hc
      exact getBit_le_one a i.toNat
    · rw [from_iter_len, List.length_map, pyRangeList_length, pyRangeLen_one]
      omega

lemma pySetSliceContig_mem (l : List Nat) (i j : Int) (w : List Nat) :
    ∀ c ∈ pySetSliceContig l i j w, c ∈ l ∨ c ∈ w := by
  unfold pySetSliceContig
  intro c hc
  simp only [List.mem_append] at hc
  rcases hc with (hc | hc) | hc
  · exact Or.inl (List.mem_of_mem_take hc)
  · exact Or.inr hc
  · exact Or.inl (List.mem_of_mem_drop hc)

lemma fdiv8_natCast (S : Nat) : ((S : Int)).fdiv 8 = ((S / 8 : Nat) : Int) := by
  rw [Int.fdiv_eq_ediv _ (by norm_num)]
  norm_cast

lemma pySetSliceContig_tail (l : List Nat) (i : Nat) (hi : i ≤ l.length) (w : List Nat) :
    pySetSliceContig l ((i : Int)) ((l.length : Int)) w = l.take i ++ w := by
  unfold pySetSliceContig
  have h1 : (min (max ((i : Int)) 0) (l.length : Int)).toNat = i := by omega
  have h2 : (min (max ((l.length : Int)) 0) (l.length : Int)).toNat = l.length := by omega
  rw [h1, h2]
  show List.take i l ++ w ++ List.drop (max i l.length) l = List.take i l ++ w
  have h3 : max i l.length = l.length := by omega
  rw [h3, List.drop_length, List.append_nil]

lemma sliceIndices_step (s0 s1 : Option Int) (st : Int) (L : Nat) :
    (sliceIndices s0 s1 st L).2.2 = st := rfl

lemma sliceIndices_one_bounds (s0 s1 : Option Int) (L : Nat) :
    0 ≤ (sliceIndices s0 s1 1 L).1 ∧ (sliceIndices s0 s1 1 L).1 ≤ L ∧
      0 ≤ (sliceIndices s0 s1 1 L).2.1 ∧ (sliceIndices s0 s1 1 L).2.1 ≤ L := by
  unfold sliceIndices
  have h1 : ¬((1 : Int) < 0) := by norm_num
  simp only [h1, if_false]
  cases s0 <;> cases s1 <;> dsimp only <;> (try split_ifs) <;> omega

lemma bits_mk_len (n : Nat) (l : List Nat) : (bits.mk n l)._len = n := rfl

lemma bits_mk_bytes (n : Nat) (l : List Nat) : (bits.mk n l)._bytes = l := rfl

/-- Well-formedness of the prefix-plus-value layout produced by the aligned tail
replacement `self._bytes[start // 8 :] = value._bytes` with `self._len = start +
value._len`. -/
lemma WF_prefix_append (S : Nat) (hS : S % 8 = 0) (pre : List Nat)
    (hpre : pre.length = S / 8) (hprem : ∀ c ∈ pre, c < 256) (v : bits) (hv : WF v) :
    WF ⟨S + v._len, pre ++ v._bytes⟩ := by
  refine ⟨?_, ?_, ?_⟩
  · simp only [List.length_append, hpre, hv.1]
    unfold byteLen
    omega
  · intro c hc
    simp only [List.mem_append] at hc
    rcases hc with hc | hc
    · exact hprem c hc
    · exact hv.2.1 c hc
  · intro hne
    simp only at hne ⊢
    have hvne : v._len % 8 ≠ 0 := by omega
    have hvbytes : v._bytes ≠ [] := by
      intro hnil
      have hl := hv.1
      rw [hnil] at hl
      simp only [List.length_nil] at hl
      unfold byteLen at hl
      omega
    rw [List.getLast?_append]
    cases hvl : v._bytes.getLast? with
    | none => exact absurd (List.getLast?_eq_none_iff.mp hvl) hvbytes
    | some c =>
      simp only [Option.or_some, Option.getD_some]
      have hvp := hv.2.2 hvne
      rw [hvl] at hvp
      simp only [Option.getD_some] at hvp
      have hmodeq : (S + v._len) % 8 = v._len % 8 := by omega
      rwa [hmodeq]

/-- Preservation of the representation invariant by every completing slice
assignment. -/
lemma WF_setitem_slice (a v b : bits) (s0 s1 : Option Int) (st : Int)
    (ha : WF a) (hv : WF v) (h : setitem_slice a s0 s1 st v = .ok b) : WF b := by
  unfold setitem_slice at h
  dsimp only at h
  by_cases hstep : st ≠ 1
  · rw [sliceIndices_step, if_pos hstep] at h
    split_ifs at h
    exact WF_fold_setitem _ a b ha h
  push_neg at hstep
  subst hstep
  rw [sliceIndices_step, if_neg (by norm_num : ¬(1 : Int) ≠ 1)] at h
  obtain ⟨hstart0, hstartle, hstop0, hstople⟩ := sliceIndices_one_bounds s0 s1 a._len
  set n := sliceIndices s0 s1 1 a._len with hn
  obtain ⟨S, hScast⟩ := Int.eq_ofNat_of_zero_le hstart0
  have hSle : S ≤ a._len := by omega
  by_cases hb1 : n.1.emod 8 = 0 ∧ n.2.1.emod 8 = 0 ∧ v._len % 8 = 0
  · rw [if_pos hb1] at h
    simp only [Except.ok.injEq] at h
    subst h
    refine ⟨?_, ?_, ?_⟩
    · rw [bits_mk_bytes, bits_mk_len]
      unfold byteLen
      omega
    · intro c hc
      rcases pySetSliceContig_mem _ _ _ _ c hc with hc | hc
      · exact ha.2.1 c hc
      · exact hv.2.1 c hc
    · intro hne
      rw [bits_mk_len] at hne
      exact absurd (by omega) hne
  rw [if_neg hb1] at h
  by_cases hb2 : n.1.emod 8 = 0 ∧ n.2.1 = (a._len : Int)
  · rw [if_pos hb2] at h
    simp only [Except.ok.injEq] at h
    subst h
    have hS8 : S % 8 = 0 := by
      have hmm : (S : Int) % 8 = 0 := by rw [← hScast]; exact hb2.1
      exact_mod_cast hmm
    have hdivle : S / 8 ≤ a._bytes.length := by
      rw [ha.1]
      unfold byteLen
      omega
    have hset : pySetSliceContig a._bytes (n.1.fdiv 8) ((a._bytes.length : Int)) v._bytes
        = a._bytes.take (S / 8) ++ v._bytes := by
      rw [hScast, fdiv8_natCast]
      exact pySetSliceContig_tail a._bytes (S / 8) hdivle v._bytes
    have hlen' : (n.1 + (v._len : Int)).toNat = S + v._len := by omega
    rw [hset, hlen']
    refine WF_prefix_append S hS8 _ ?_ ?_ v hv
    · simp only [List.length_take]
      omega
    · intro c hc
      exact ha.2.1 c (List.mem_of_mem_take hc)
  rw [if_neg hb2] at h
  by_cases hb3 : n.2.1 - n.1 = (v._len : Int)
  · rw [if_pos hb3] at h
    exact WF_fold_setitem _ a b ha h
  rw [if_neg hb3] at h
  by_cases hb4 : n.2.1 = (a._len : Int)
  · rw [if_pos hb4] at h
    cases hres : _resize a (a._len + v._len) with
    | error e =>
      rw [hres, except_bind_error] at h
      exact absurd h (by simp)
    | ok s =>
      rw [hres, except_bind_ok] at h
      obtain ⟨hslen, hle⟩ := resize_ok _ _ _ hres
      have hWFs : WF s := WF_resize a _ s ha (Or.inr (by omega)) hres
      exact WF_fold_setitem _ s b hWFs h
  rw [if_neg hb4] at h
  cases hres : _resize a n.1.toNat with
  | error e =>
    rw [hres, except_bind_error] at h
    exact absurd h (by simp)
  | ok s =>
    rw [hres, except_bind_ok] at h
    obtain ⟨hslen, hsle⟩ := resize_ok _ _ _ hres
    obtain ⟨hWFtail, htaillen⟩ := getitem_tail a n.2.1 hstop0 ha
    by_cases hal : n.1.toNat % 8 = 0
    · have hWFs : WF s := WF_resize a _ s ha (Or.inl hal) hres
      cases hext : extend_bits s v with
      | error e =>
        rw [hext, except_bind_error] at h
        exact absurd h (by simp)
      | ok s2 =>
        rw [hext, except_bind_ok] at h
        exact WF_extend s2 _ b (WF_extend s v s2 hWFs hv hext) hWFtail h
    · cases hext : extend_bits s v with
      | error e =>
        rw [hext, except_bind_error] at h
        exact absurd h (by simp)
      | ok s2 =>
        rw [hext, except_bind_ok] at h
        have hsne : s._len % 8 ≠ 0 := by rw [hslen]; exact hal
        obtain ⟨hv0, heq⟩ := extend_ok_unaligned s v s2 hsne hext
        rw [heq] at h
        obtain ⟨htail0, -⟩ := extend_ok_unaligned s _ b hsne h
        rw [htaillen] at htail0
        have hstoplt : n.2.1 < (a._len : Int) := lt_of_le_of_ne hstople hb4
        omega

/-- Preservation of the representation invariant by every completing insertion. -/
lemma WF_insert (a : bits) (index value : Int) (b : bits)
    (ha : WF a) (h : bitarray_insert a index value = .ok b) : WF b := by
  unfold bitarray_insert at h
  dsimp only at h
  by_cases hv : value ≠ 0 ∧ value ≠ 1
  · rw [if_pos hv] at h
    simp at h
  rw [if_neg hv] at h
  by_cases heq : (if index < 0 then index + (a._len : Int) else index) = (a._len : Int)
  · rw [if_pos heq] at h
    by_cases hal : a._len % 8 = 0
    · rw [if_pos hal] at h
      have hwf2 : WF ⟨a._len + 1, a._bytes ++ [0]⟩ := by
        refine ⟨?_, ?_, ?_⟩
        · show (a._bytes ++ [0]).length = byteLen (a._len + 1)
          simp only [List.length_append, List.length_singleton, ha.1]
          unfold byteLen
          omega
        · intro c hc
          have hc2 : c ∈ a._bytes ++ [0] := hc
          rcases List.mem_append.mp hc2 with hc3 | hc3
          · exact ha.2.1 c hc3
          · simp only [List.mem_singleton] at hc3
            omega
        · intro hne
          show (a._bytes ++ [0]).getLast?.getD 0 < 2 ^ ((a._len + 1) % 8)
          rw [List.getLast?_concat]
          simp only [Option.getD_some]
          positivity
      exact WF_setitem_int _ _ _ _ hwf2 h
    · rw [if_neg hal] at h
      have hwf2 : WF ⟨a._len + 1, a._bytes⟩ := by
        refine ⟨?_, ?_, ?_⟩
        · show a._bytes.length = byteLen (a._len + 1)
          rw [ha.1]
          unfold byteLen
          omega
        · intro c hc
          exact ha.2.1 c hc
        · intro hne
          show a._bytes.getLast?.getD 0 < 2 ^ ((a._len + 1) % 8)
          have hne2 : (a._len + 1) % 8 ≠ 0 := hne
          have hmode : (a._len + 1) % 8 = a._len % 8 + 1 := by omega
          rw [hmode]
          calc a._bytes.getLast?.getD 0 < 2 ^ (a._len % 8) := ha.2.2 hal
            _ ≤ 2 ^ (a._len % 8 + 1) := Nat.pow_le_pow_right (by norm_num) (by omega)
      exact WF_setitem_int _ _ _ _ hwf2 h
  · rw [if_neg heq] at h
    have hwfv : WF (from_int value 1) := by
      rcases (by omega : value = 0 ∨ value = 1) with rfl | rfl <;> decide
    exact WF_setitem_slice a (from_int value 1) b _ _ 1 ha hwfv h

lemma WF_applyOp (a : bits) (op : MutOp) (b : bits) (ha : WF a) (hop : OpWF op)
    (h : applyOp a op = .ok b) : WF b := by
  cases op with
  | setBit k v => exact WF_setitem_int a k v b ha h
  | setSlice s0 s1 st v => exact WF_setitem_slice a v b s0 s1 st ha hop h
  | ins i v => exact WF_insert a i v b ha h
  | delOp k => simp [applyOp, delitem] at h

/-! ## Claim C2: mutation invariants -/

/-- C2: after any finite sequence of insert / delete / slice-assignment operations
completes on a well-formed mutable sequence, the storage holds exactly
`ceil(len / 8)` bytes and, when the length is not a multiple of 8, the unused high
bits of the final storage byte are zero.  (On this source a deletion never
completes: `__delitem__` carries a phantom extra parameter, so `del` raises
`TypeError` - see claim C4; the delete case is therefore vacuous, while all
completing assignments and insertions genuinely preserve the invariant.) -/
theorem C2_mutation_invariants (a : bits) (ops : List MutOp) (b : bits)
    (ha : WF a) (hops : ∀ op ∈ ops, OpWF op) (h : applyOps a ops = .ok b) :
    b._bytes.length = byteLen b._len ∧
      (b._len % 8 ≠ 0 → b._bytes.getLast?.getD 0 < 2 ^ (b._len % 8)) := by
  have hwf : WF b := by
    induction ops generalizing a with
    | nil =>
      unfold applyOps at h
      simp only [List.foldlM_nil, pure, Except.pure] at h
      cases h
      exact ha
    | cons op t ih =>
      unfold applyOps at h
      rw [List.foldlM_cons] at h
      cases happ : applyOp a op with
      | error e =>
        rw [happ, except_bind_error] at h
        exact absurd h (by simp)
      | ok s =>
        rw [happ, except_bind_ok] at h
        exact ih s (WF_applyOp a op s ha (hops op (List.mem_cons_self _ _)) happ)
          (fun o ho => hops o (List.mem_cons_of_mem _ ho)) h
  exact ⟨hwf.1, hwf.2.2⟩

theorem C2_mutation_invariants_witness :
    ([5] : List Nat).length = byteLen 3 ∧
      ((3 : Nat) % 8 ≠ 0 → ([5] : List Nat).getLast?.getD 0 < 2 ^ (3 % 8)) := by
  have h := C2_mutation_invariants ⟨0, []⟩
    [.ins 0 1, .ins 1 0, .ins 2 1, .setBit 0 0, .setSlice (some 0) (some 3) 1 ⟨3, [5]⟩]
    ⟨3, [5]⟩ (by decide) (by decide) (by decide)
  simpa using h
